import Mathlib

/-!
Verification of the expiring concurrent map (`TTLDictionary`) of
`src/ttl_dictionary.py` against its natural-language specification.

The embedding is a direct shallow translation of the Python source:

* Python values passed through `__setitem__` are modelled by `PyVal`
  (opaque objects, integers, `None`, and tuples — the only shapes the
  write interface inspects).
* `float` timestamps are modelled by `Int` (the claims only need
  discrete instants); `float("inf")` is the `DTime.inf` sentinel.
* The `heapq` module's exact array algorithms (`_siftdown`, `_siftup`,
  `heappush`, `heappop` of CPython) are reproduced, because the source
  stores `self.expiry_times` as a `heapq` array and also rebuilds it by
  plain list filtering, so the observable behaviour depends on the
  precise array layout.
* Each public operation returns `(result, state after the call)`;
  exceptions are `Except.error` results that leave the state exactly as
  the Python exception path leaves it.
* The background reaper thread and the lock are modelled by allowing a
  sweep step (`_clean_expired_unsafe` under the lock) to be interleaved
  at any instant: `Reach` below is the set of states reachable by any
  interleaving of complete (lock-atomic) operations at non-decreasing
  wall-clock instants.
-/

/-- Python values as far as `TTLDictionary` inspects them: opaque
non-tuple objects (indexed by a `Nat` tag), integers, `None`, and
tuples.  `__setitem__` only ever tests `isinstance(…, tuple)`, unpacks
a tuple into two components, and adds a TTL to `time.time()`. -/
inductive PyVal where
  | obj : Nat → PyVal
  | vint : Int → PyVal
  | vnone : PyVal
  | tup : List PyVal → PyVal

/-- Python `isinstance(v, tuple)`. -/
def isTup : PyVal → Bool
  | .tup _ => true
  | _ => false

/-- Errors raised by the dictionary code: `KeyError` from lookup and
deletion, `TypeError` from `time.time() + ttl` on a non-numeric TTL,
`ValueError` from unpacking a tuple whose length is not 2. -/
inductive PyErr where
  | keyError
  | typeError
  | valueError
  deriving DecidableEq

/-- An expiry instant: a finite timestamp or `float("inf")`. -/
inductive DTime where
  | fin : Int → DTime
  | inf : DTime
  deriving DecidableEq

/-- Python `<` on expiry instants (`inf` is greater than every finite
timestamp, and `inf < inf` is false). -/
def DTime.blt : DTime → DTime → Bool
  | .fin a, .fin b => a < b
  | .fin _, .inf => true
  | .inf, _ => false

/-- Python `==` on expiry instants (`inf == inf` is true). -/
def DTime.beq : DTime → DTime → Bool
  | .fin a, .fin b => a == b
  | .inf, .inf => true
  | _, _ => false

/-- Python `<=` between an expiry instant and a finite timestamp: the
guard `self.expiry_times[0][0] <= now` of `_clean_expired_unsafe`. -/
def DTime.leInt : DTime → Int → Bool
  | .fin a, n => a ≤ n
  | .inf, _ => false

/-- Python `<` on the `(expiry_time, key)` tuples stored in the heap:
lexicographic, comparing keys when the deadlines are equal, exactly as
CPython compares tuples. -/
def pairLt (p q : DTime × Nat) : Bool :=
  p.1.blt q.1 || (p.1.beq q.1 && decide (p.2 < q.2))

/-- CPython `heapq._siftdown(heap, startpos, pos)` with
`newitem = heap[pos]` read off at entry.  The loop variable `pos`
strictly decreases, so a fuel argument initialised to `pos` (consumed
once per iteration) never runs out before the loop guard fails; the
fuel-exhausted branch coincides with the loop-exit action. -/
def siftdownF {α : Type} (lt : α → α → Bool) (startpos : Nat) (newitem : α) :
    Nat → List α → Nat → List α
  | 0, heap, pos => heap.set pos newitem
  | fuel + 1, heap, pos =>
    if startpos < pos then
      let parentpos := (pos - 1) / 2
      let parent := heap.getD parentpos newitem
      if lt newitem parent then
        siftdownF lt startpos newitem fuel (heap.set pos parent) parentpos
      else
        heap.set pos newitem
    else
      heap.set pos newitem

/-- CPython `heapq._siftup(heap, pos)` with `newitem = heap[pos]` and
`endpos = len(heap)`.  The loop variable `pos` strictly increases below
`endpos`, so fuel `endpos` suffices and the fuel-exhausted branch
coincides with the loop-exit action (store `newitem`, then sift down). -/
def siftupF {α : Type} (lt : α → α → Bool) (endpos startpos : Nat) (newitem : α) :
    Nat → List α → Nat → List α
  | 0, heap, pos => siftdownF lt startpos newitem pos heap pos
  | fuel + 1, heap, pos =>
    let childpos := 2 * pos + 1
    if childpos < endpos then
      let rightpos := childpos + 1
      let bestpos :=
        if decide (rightpos < endpos) && !(lt (heap.getD childpos newitem) (heap.getD rightpos newitem)) then
          rightpos
        else
          childpos
      siftupF lt endpos startpos newitem fuel (heap.set pos (heap.getD bestpos newitem)) bestpos
    else
      siftdownF lt startpos newitem pos heap pos

/-- CPython `heapq.heappush(heap, item)`: append, then sift the new
last element towards the root. -/
def heappush {α : Type} (lt : α → α → Bool) (heap : List α) (item : α) : List α :=
  siftdownF lt 0 item heap.length (heap ++ [item]) heap.length

/-- CPython `heapq.heappop(heap)`: `heap.pop()` the last element; on a
now-empty heap return it, otherwise return the root after writing the
popped last element at index 0 and sifting it up.  `none` models the
`IndexError` on an empty heap (never hit by the dictionary code). -/
def heappop {α : Type} (lt : α → α → Bool) : List α → Option (α × List α)
  | [] => none
  | [a] => some (a, [])
  | a :: b :: t =>
    let lastelt := t.getLastD b
    let rest := lastelt :: (b :: t).dropLast
    some (a, siftupF lt rest.length 0 lastelt rest.length rest 0)

/-- First value stored under a key in the association list modelling
`self.data` (a Python `dict`: keys are unique, insertion order kept). -/
def lookupKey (key : Nat) : List (Nat × PyVal) → Option PyVal
  | [] => none
  | (k, v) :: t => if k = key then some v else lookupKey key t

/-- Python `key in self.data`. -/
def containsKey (key : Nat) (l : List (Nat × PyVal)) : Bool :=
  (lookupKey key l).isSome

/-- Python `self.data[key] = value`: overwrite in place if the key is
present (keeping its position, as a `dict` does), else append. -/
def insertKey (key : Nat) (v : PyVal) : List (Nat × PyVal) → List (Nat × PyVal)
  | [] => [(key, v)]
  | (k, w) :: t => if k = key then (key, v) :: t else (k, w) :: insertKey key v t

/-- Python `del self.data[key]` on a present key (dict keys are unique,
so filtering away the key removes exactly its entry). -/
def eraseKey (key : Nat) (l : List (Nat × PyVal)) : List (Nat × PyVal) :=
  l.filter fun p => decide (p.1 ≠ key)

/-- The state guarded by `self.lock`: the entry store `self.data` and
the deadline index `self.expiry_times`. -/
structure TTLDict where
  data : List (Nat × PyVal)
  expiry_times : List (DTime × Nat)

/-- The state built by `__init__` (the lock and reaper thread carry no
map state). -/
def TTLDict.empty : TTLDict := ⟨[], []⟩

/-- The loop of `_clean_expired_unsafe`: while the index is non-empty
and its first element's deadline is `<= now`, pop the smallest element
off the heap and delete its key from the store (the `except KeyError:
pass` makes a missing key a no-op).  Each iteration shrinks the heap by
one, so fuel initialised to the heap length never runs out before the
guard fails. -/
def cleanF (now : Int) : Nat → List (Nat × PyVal) → List (DTime × Nat) →
    List (Nat × PyVal) × List (DTime × Nat)
  | 0, data, heap => (data, heap)
  | fuel + 1, data, heap =>
    match heap with
    | [] => (data, [])
    | p :: rest0 =>
      if p.1.leInt now then
        match heappop pairLt (p :: rest0) with
        | some (r, rest) => cleanF now fuel (eraseKey r.2 data) rest
        | none => (data, p :: rest0)
      else
        (data, p :: rest0)

/-- `_clean_expired_unsafe(self)` at wall-clock instant `now`. -/
def cleanExpired (now : Int) (st : TTLDict) : TTLDict :=
  let r := cleanF now st.expiry_times.length st.data st.expiry_times
  { data := r.1, expiry_times := r.2 }

/-- The prelude of `__setitem__`: destructure `value_and_ttl` and
compute `expiry_time`.  A 2-tuple is split into value and TTL
(`None` TTL means `float("inf")`, an integer TTL means
`time.time() + ttl_seconds`); a non-numeric TTL raises `TypeError`
from the addition, a tuple of length other than 2 raises `ValueError`
from unpacking; any non-tuple argument is the value itself and never
expires. -/
def parseArg (now : Int) : PyVal → Except PyErr (PyVal × DTime)
  | .tup [value, .vnone] => .ok (value, .inf)
  | .tup [value, .vint n] => .ok (value, .fin (now + n))
  | .tup [_, _] => .error .typeError
  | .tup _ => .error .valueError
  | v => .ok (v, .inf)

/-- `__setitem__(self, key, value_and_ttl)` at instant `now`.  If the
key is already present the whole index is rebuilt by the list
comprehension dropping that key's pairs; then the value is stored and
the new `(expiry_time, key)` pair is pushed. -/
def setitem (now : Int) (key : Nat) (value_and_ttl : PyVal) (st : TTLDict) :
    Except PyErr Unit × TTLDict :=
  match parseArg now value_and_ttl with
  | .error e => (.error e, st)
  | .ok (value, expiry_time) =>
    let et :=
      if containsKey key st.data then
        st.expiry_times.filter fun p => decide (p.2 ≠ key)
      else
        st.expiry_times
    (.ok (), { data := insertKey key value st.data,
               expiry_times := heappush pairLt et (expiry_time, key) })

/-- `__getitem__(self, key)` at instant `now`: sweep, then look the key
up, raising `KeyError` when absent. -/
def getitem (now : Int) (key : Nat) (st : TTLDict) : Except PyErr PyVal × TTLDict :=
  let st1 := cleanExpired now st
  match lookupKey key st1.data with
  | some v => (.ok v, st1)
  | none => (.error .keyError, st1)

/-- `get(self, key, default=None)` at instant `now`: sweep, then
`self.data.get(key, default)`. -/
def getDefault (now : Int) (key : Nat) (default : PyVal) (st : TTLDict) :
    PyVal × TTLDict :=
  let st1 := cleanExpired now st
  ((lookupKey key st1.data).getD default, st1)

/-- `__delitem__(self, key)`: `del self.data[key]` (raising `KeyError`
and leaving both structures untouched when absent), then rebuild the
index without that key's pairs. -/
def delitem (key : Nat) (st : TTLDict) : Except PyErr Unit × TTLDict :=
  match lookupKey key st.data with
  | none => (.error .keyError, st)
  | some _ =>
    (.ok (), { data := eraseKey key st.data,
               expiry_times := st.expiry_times.filter fun p => decide (p.2 ≠ key) })

/-- `__contains__(self, key)`: a direct store lookup, no sweep. -/
def containsOp (key : Nat) (st : TTLDict) : Bool × TTLDict :=
  (containsKey key st.data, st)

/-- `__len__(self)`: `len(self.data)`, no sweep. -/
def lenOp (st : TTLDict) : Nat × TTLDict :=
  (st.data.length, st)

/-- `keys(self)`: `list(self.data.keys())`, a snapshot, no sweep. -/
def keysOp (st : TTLDict) : List Nat × TTLDict :=
  (st.data.map Prod.fst, st)

/-- `values(self)`: `list(self.data.values())`, a snapshot, no sweep. -/
def valuesOp (st : TTLDict) : List PyVal × TTLDict :=
  (st.data.map Prod.snd, st)

/-- `items(self)`: `list(self.data.items())`, a snapshot, no sweep. -/
def itemsOp (st : TTLDict) : List (Nat × PyVal) × TTLDict :=
  (st.data, st)

/-- States reachable from construction by complete lock-atomic
operations at non-decreasing wall-clock instants.  Failed operations
leave the state of `setitem`/`delitem` unchanged, so taking the second
component covers success and failure alike; `getitem`/`getDefault`
mutate the state exactly as `cleanExpired` does, and the background
reaper performs the same `cleanExpired` step, so one sweep constructor
covers read-triggered and periodic sweeps. -/
inductive Reach : Int → TTLDict → Prop
  | init (t : Int) : Reach t TTLDict.empty
  | tick {t st} (t1 : Int) : Reach t st → t ≤ t1 → Reach t1 st
  | set {t st} (now : Int) (key : Nat) (arg : PyVal) :
      Reach t st → t ≤ now → Reach now (setitem now key arg st).2
  | del {t st} (now : Int) (key : Nat) :
      Reach t st → t ≤ now → Reach now (delitem key st).2
  | sweep {t st} (now : Int) :
      Reach t st → t ≤ now → Reach now (cleanExpired now st)

/-- The structural invariant relating the two components: the store's
keys are pairwise distinct (it models a `dict`), and the multiset of
keys occurring in the deadline index is exactly the multiset of keys of
the store — every stored key has exactly one `(deadline, key)` pair and
no pair is stale. -/
def IndexInv (st : TTLDict) : Prop :=
  (st.data.map Prod.fst).Nodup ∧
    List.Perm (st.expiry_times.map Prod.snd) (st.data.map Prod.fst)

/-- The sweep loop instrumented with a counter of how many times the
`except KeyError: pass` branch fires (the popped key is already absent
from the store); otherwise identical to `cleanF`. -/
def cleanFC (now : Int) : Nat → List (Nat × PyVal) → List (DTime × Nat) →
    (List (Nat × PyVal) × List (DTime × Nat)) × Nat
  | 0, data, heap => ((data, heap), 0)
  | fuel + 1, data, heap =>
    match heap with
    | [] => ((data, []), 0)
    | p :: rest0 =>
      if p.1.leInt now then
        match heappop pairLt (p :: rest0) with
        | some (r, rest) =>
          let miss := if containsKey r.2 data then 0 else 1
          let res := cleanFC now fuel (eraseKey r.2 data) rest
          (res.1, miss + res.2)
        | none => ((data, p :: rest0), 0)
      else
        ((data, p :: rest0), 0)

/-- Reachability augmented with a ghost record of the deadline computed
at each key's most recent successful write (the "current effective
deadline" of the specification).  The ghost map is updated only by a
successful `setitem`; all other operations, including failed writes
(which leave the state unchanged and are covered by `tick`), keep it. -/
inductive ReachG : Int → TTLDict → (Nat → Option DTime) → Prop
  | init (t : Int) : ReachG t TTLDict.empty (fun _ => none)
  | tick {t st g} (t1 : Int) : ReachG t st g → t ≤ t1 → ReachG t1 st g
  | set {t st g} (now : Int) (key : Nat) (arg : PyVal) (value : PyVal) (d : DTime) :
      ReachG t st g → t ≤ now → parseArg now arg = .ok (value, d) →
      ReachG now (setitem now key arg st).2 (fun k => if k = key then some d else g k)
  | del {t st g} (now : Int) (key : Nat) :
      ReachG t st g → t ≤ now → ReachG now (delitem key st).2 g
  | sweep {t st g} (now : Int) :
      ReachG t st g → t ≤ now → ReachG now (cleanExpired now st) g

/-- One complete operation that is not a write or delete of the
distinguished key `K`: a `setitem` of another key at any instant, a
`delitem` of another key, or a sweep (read-triggered or periodic) at
any instant. -/
def AvoidK (K : Nat) (st st1 : TTLDict) : Prop :=
  (∃ now key arg, key ≠ K ∧ st1 = (setitem now key arg st).2) ∨
  (∃ key, key ≠ K ∧ st1 = (delitem key st).2) ∨
  (∃ now, st1 = cleanExpired now st)

/-- Like `AvoidK`, but every sweep happens strictly before the cutoff
instant `cut` (the scenario "before the original deadline elapses"). -/
def AvoidKB (K : Nat) (cut : Int) (st st1 : TTLDict) : Prop :=
  (∃ now key arg, key ≠ K ∧ st1 = (setitem now key arg st).2) ∨
  (∃ key, key ≠ K ∧ st1 = (delitem key st).2) ∨
  (∃ now, now < cut ∧ st1 = cleanExpired now st)

/-- Concrete run: at instant 0, six distinct keys are written with TTLs
1, 5, 2, 6, 7 and 3. -/
def bs1 : TTLDict := (setitem 0 1 (.tup [.obj 1, .vint 1]) TTLDict.empty).2

def bs2 : TTLDict := (setitem 0 2 (.tup [.obj 2, .vint 5]) bs1).2

def bs3 : TTLDict := (setitem 0 3 (.tup [.obj 3, .vint 2]) bs2).2

def bs4 : TTLDict := (setitem 0 4 (.tup [.obj 4, .vint 6]) bs3).2

def bs5 : TTLDict := (setitem 0 5 (.tup [.obj 5, .vint 7]) bs4).2

def bs6 : TTLDict := (setitem 0 6 (.tup [.obj 6, .vint 3]) bs5).2

/-- Still at instant 0, key 1 is overwritten with a plain (never
expiring) value.  The overwrite path rebuilds `expiry_times` by list
filtering, which silently destroys the heap shape `heapq` relies on:
the array becomes `[(5,2), (2,3), (6,4), (7,5), (3,6), (inf,1)]`,
whose first element is not the minimum. -/
def bs7 : TTLDict := (setitem 0 1 (.obj 10) bs6).2

/-- The state at instant 4 after the periodic reaper sweeps at instants
1, 2, 3 and 4.  Every one of those sweeps sees `(5, 2)` at the root of
the damaged heap, concludes nothing has expired, and stops — although
keys 3 and 6 expired at instants 2 and 3. -/
def bugState : TTLDict :=
  cleanExpired 4 (cleanExpired 3 (cleanExpired 2 (cleanExpired 1 bs7)))

/-! ### Length and permutation facts about the heap primitives -/

theorem siftdownF_length {α : Type} (lt : α → α → Bool) (s : Nat) (x : α) :
    ∀ (fuel : Nat) (heap : List α) (pos : Nat),
      (siftdownF lt s x fuel heap pos).length = heap.length := by
  intro fuel
  induction fuel with
  | zero => intro heap pos; simp [siftdownF]
  | succ n ih =>
    intro heap pos
    simp only [siftdownF]
    split
    · split
      · rw [ih]; simp
      · simp
    · simp

theorem siftupF_length {α : Type} (lt : α → α → Bool) (e s : Nat) (x : α) :
    ∀ (fuel : Nat) (heap : List α) (pos : Nat),
      (siftupF lt e s x fuel heap pos).length = heap.length := by
  intro fuel
  induction fuel with
  | zero => intro heap pos; simp [siftupF, siftdownF_length]
  | succ n ih =>
    intro heap pos
    simp only [siftupF]
    split
    · rw [ih]; simp
    · simp [siftdownF_length]

theorem getD_set_self {α : Type} (a d : α) :
    ∀ (l : List α) (i : Nat), i < l.length → (l.set i a).getD i d = a := by
  intro l
  induction l with
  | nil => intro i h; simp at h
  | cons b t ih =>
    intro i h
    cases i with
    | zero => simp
    | succ j =>
      simp only [List.set_cons_succ, List.getD_cons_succ]
      exact ih j (by simpa using h)

theorem getD_set_ne {α : Type} (a d : α) :
    ∀ (l : List α) (i j : Nat), i ≠ j → (l.set i a).getD j d = l.getD j d := by
  intro l
  induction l with
  | nil => intro i j _; simp
  | cons b t ih =>
    intro i j hne
    cases i with
    | zero =>
      cases j with
      | zero => exact absurd rfl hne
      | succ j1 => simp
    | succ i1 =>
      cases j with
      | zero => simp
      | succ j1 =>
        simp only [List.set_cons_succ, List.getD_cons_succ]
        exact ih i1 j1 (by omega)

theorem getD_cons_perm_set {α : Type} (a d : α) :
    ∀ (t : List α) (m : Nat), m < t.length →
      List.Perm ((t.getD m d) :: t.set m a) (a :: t) := by
  intro t
  induction t with
  | nil => intro m h; simp at h
  | cons b u ih =>
    intro m h
    cases m with
    | zero =>
      simp only [List.getD_cons_zero, List.set_cons_zero]
      exact List.Perm.swap a b u
    | succ m1 =>
      simp only [List.getD_cons_succ, List.set_cons_succ]
      have h1 : List.Perm ((u.getD m1 d) :: b :: u.set m1 a)
          (b :: (u.getD m1 d) :: u.set m1 a) := List.Perm.swap _ _ _
      have h2 : List.Perm (b :: (u.getD m1 d) :: u.set m1 a) (b :: a :: u) :=
        List.Perm.cons b (ih m1 (by simpa using h))
      have h3 : List.Perm (b :: a :: u) (a :: b :: u) := List.Perm.swap _ _ _
      exact h1.trans (h2.trans h3)

theorem set_set_swap_perm {α : Type} (d : α) :
    ∀ (l : List α) (i j : Nat), i < l.length → j < l.length → i ≠ j →
      List.Perm ((l.set i (l.getD j d)).set j (l.getD i d)) l := by
  intro l
  induction l with
  | nil => intro i j hi _ _; simp at hi
  | cons a t ih =>
    intro i j hi hj hne
    cases i with
    | zero =>
      cases j with
      | zero => exact absurd rfl hne
      | succ m =>
        simp only [List.getD_cons_zero, List.getD_cons_succ, List.set_cons_zero,
          List.set_cons_succ]
        exact getD_cons_perm_set a d t m (by simpa using hj)
    | succ m =>
      cases j with
      | zero =>
        simp only [List.getD_cons_zero, List.getD_cons_succ, List.set_cons_succ,
          List.set_cons_zero]
        exact getD_cons_perm_set a d t m (by simpa using hi)
      | succ m1 =>
        simp only [List.getD_cons_succ, List.set_cons_succ]
        exact List.Perm.cons a (ih m m1 (by simpa using hi) (by simpa using hj) (by omega))

theorem siftdownF_perm {α : Type} (lt : α → α → Bool) (s : Nat) (x : α) :
    ∀ (fuel : Nat) (heap : List α) (pos : Nat), pos < heap.length →
      List.Perm (siftdownF lt s x fuel heap pos) (heap.set pos x) := by
  intro fuel
  induction fuel with
  | zero => intro heap pos _; exact List.Perm.refl _
  | succ n ih =>
    intro heap pos hpos
    simp only [siftdownF]
    split
    · next hs =>
      split
      · next hlt =>
        have hpp : (pos - 1) / 2 < pos := by omega
        have hpp2 : (pos - 1) / 2 < (heap.set pos (heap.getD ((pos - 1) / 2) x)).length := by
          simp; omega
        have h1 := ih (heap.set pos (heap.getD ((pos - 1) / 2) x)) ((pos - 1) / 2) hpp2
        refine h1.trans ?_
        have e1 : heap.set pos (heap.getD ((pos - 1) / 2) x)
            = (heap.set pos x).set pos (heap.getD ((pos - 1) / 2) x) := by
          rw [List.set_set]
        have e2 : heap.getD ((pos - 1) / 2) x = (heap.set pos x).getD ((pos - 1) / 2) x := by
          rw [getD_set_ne x x heap pos ((pos - 1) / 2) (by omega)]
        have e3 : x = (heap.set pos x).getD pos x := by
          rw [getD_set_self x x heap pos hpos]
        have h2 := set_set_swap_perm x (heap.set pos x) pos ((pos - 1) / 2)
          (by simpa using hpos) (by simp; omega) (by omega)
        rw [← e3, ← e2, ← e1] at h2
        exact h2
      · exact List.Perm.refl _
    · exact List.Perm.refl _

theorem siftupF_perm {α : Type} (lt : α → α → Bool) (s : Nat) (x : α) :
    ∀ (fuel : Nat) (endpos : Nat) (heap : List α) (pos : Nat), pos < heap.length →
      heap.length = endpos →
      List.Perm (siftupF lt endpos s x fuel heap pos) (heap.set pos x) := by
  intro fuel
  induction fuel with
  | zero => intro endpos heap pos hpos _; exact siftdownF_perm lt s x pos heap pos hpos
  | succ n ih =>
    intro endpos heap pos hpos hlen
    simp only [siftupF]
    split
    · next hchild =>
      set bestpos :=
        if decide (2 * pos + 1 + 1 < endpos) &&
            !(lt (heap.getD (2 * pos + 1) x) (heap.getD (2 * pos + 1 + 1) x)) then
          2 * pos + 1 + 1
        else
          2 * pos + 1 with hbdef
      have hb : bestpos < endpos := by
        rw [hbdef]
        split
        · next hcond =>
          have := (Bool.and_eq_true _ _).mp hcond
          exact of_decide_eq_true this.1
        · exact hchild
      have hbpos : bestpos ≠ pos := by
        have : 2 * pos + 1 ≤ bestpos := by rw [hbdef]; split <;> omega
        omega
      have hlen2 : (heap.set pos (heap.getD bestpos x)).length = endpos := by
        simpa using hlen
      have h1 := ih endpos (heap.set pos (heap.getD bestpos x)) bestpos
        (by rw [hlen2]; exact hb) hlen2
      refine h1.trans ?_
      have e1 : heap.set pos (heap.getD bestpos x)
          = (heap.set pos x).set pos (heap.getD bestpos x) := by
        rw [List.set_set]
      have e2 : heap.getD bestpos x = (heap.set pos x).getD bestpos x := by
        rw [getD_set_ne x x heap pos bestpos (by omega)]
      have e3 : x = (heap.set pos x).getD pos x := by
        rw [getD_set_self x x heap pos hpos]
      have h2 := set_set_swap_perm x (heap.set pos x) pos bestpos
        (by simpa using hpos) (by simp [hlen]; exact hb) (by omega)
      rw [← e3, ← e2, ← e1] at h2
      exact h2
    · exact siftdownF_perm lt s x pos heap pos hpos

theorem set_append_singleton_self {α : Type} (x : α) :
    ∀ (l : List α), (l ++ [x]).set l.length x = l ++ [x] := by
  intro l
  induction l with
  | nil => rfl
  | cons a t ih => simp only [List.cons_append, List.length_cons, List.set_cons_succ, ih]

/-- `heappush` produces a permutation of the pushed element and the old
heap contents. -/
theorem heappush_perm {α : Type} (lt : α → α → Bool) (heap : List α) (x : α) :
    List.Perm (heappush lt heap x) (x :: heap) := by
  have h1 := siftdownF_perm lt 0 x heap.length (heap ++ [x]) heap.length (by simp)
  rw [set_append_singleton_self] at h1
  exact h1.trans (List.perm_append_singleton x heap)

theorem getLastD_cons_dropLast_perm {α : Type} :
    ∀ (u : List α) (c : α),
      List.Perm ((u.getLastD c) :: (c :: u).dropLast) (c :: u) := by
  intro u
  induction u with
  | nil => intro c; exact List.Perm.refl _
  | cons e u1 ih =>
    intro c
    have e1 : (e :: u1).getLastD c = u1.getLastD e := List.getLastD_cons c e u1
    have e2 : (c :: e :: u1).dropLast = c :: (e :: u1).dropLast := rfl
    rw [e1, e2]
    have h1 : List.Perm ((u1.getLastD e) :: c :: (e :: u1).dropLast)
        (c :: (u1.getLastD e) :: (e :: u1).dropLast) := List.Perm.swap _ _ _
    exact h1.trans (List.Perm.cons c (ih e))

/-- `heappop` on a non-empty heap returns the heap's first element
(the root the caller peeked at) and one fewer elements, a permutation
of the rest. -/
theorem heappop_spec {α : Type} (lt : α → α → Bool) (a : α) (t : List α) :
    ∃ rest, heappop lt (a :: t) = some (a, rest) ∧ rest.length = t.length ∧
      List.Perm rest t := by
  cases t with
  | nil => exact ⟨[], rfl, rfl, List.Perm.refl _⟩
  | cons b u =>
    refine ⟨_, rfl, ?_, ?_⟩
    · rw [siftupF_length]
      simp
    · have hlen : (0 : Nat) < ((u.getLastD b) :: (b :: u).dropLast).length := by simp
      have h1 := siftupF_perm lt 0 (u.getLastD b)
        ((u.getLastD b) :: (b :: u).dropLast).length
        ((u.getLastD b) :: (b :: u).dropLast).length
        ((u.getLastD b) :: (b :: u).dropLast) 0 hlen rfl
      rw [List.set_cons_zero] at h1
      exact h1.trans (getLastD_cons_dropLast_perm u b)

theorem heappop_eq_some {α : Type} {lt : α → α → Bool} {a r : α} {t rest : List α}
    (h : heappop lt (a :: t) = some (r, rest)) :
    r = a ∧ rest.length = t.length ∧ List.Perm rest t := by
  obtain ⟨rest1, he, hl, hp⟩ := heappop_spec lt a t
  rw [he] at h
  obtain ⟨h1, h2⟩ : a = r ∧ rest1 = rest := by
    have := Option.some.inj h
    exact ⟨congrArg Prod.fst this, congrArg Prod.snd this⟩
  subst h1
  subst h2
  exact ⟨rfl, hl, hp⟩

theorem heappop_cons_ne_none {α : Type} {lt : α → α → Bool} {a : α} {t : List α} :
    heappop lt (a :: t) ≠ none := by
  obtain ⟨rest1, he, _, _⟩ := heappop_spec lt a t
  rw [he]
  exact fun h => Option.noConfusion h

/-! ### Facts about the entry-store operations -/

theorem lookup_insert_self (k : Nat) (v : PyVal) :
    ∀ l, lookupKey k (insertKey k v l) = some v := by
  intro l
  induction l with
  | nil => simp [insertKey, lookupKey]
  | cons p t ih =>
    by_cases h : p.1 = k
    · simp [insertKey, lookupKey, h]
    · simp only [insertKey, lookupKey]
      rw [if_neg h]
      simp only [lookupKey]
      rw [if_neg h]
      exact ih

theorem lookup_insert_ne (k k1 : Nat) (v : PyVal) (hne : k1 ≠ k) :
    ∀ l, lookupKey k1 (insertKey k v l) = lookupKey k1 l := by
  intro l
  induction l with
  | nil =>
    simp only [insertKey, lookupKey]
    rw [if_neg (fun h => hne h.symm)]
  | cons p t ih =>
    by_cases h : p.1 = k
    · simp only [insertKey]
      rw [if_pos h]
      simp only [lookupKey]
      rw [if_neg (fun h2 => hne h2.symm), if_neg (by rw [h]; exact fun h2 => hne h2.symm)]
    · simp only [insertKey]
      rw [if_neg h]
      simp only [lookupKey]
      rw [ih]

theorem lookup_erase_ne (k k1 : Nat) (hne : k1 ≠ k) :
    ∀ l, lookupKey k1 (eraseKey k l) = lookupKey k1 l := by
  intro l
  induction l with
  | nil => simp [eraseKey, lookupKey]
  | cons p t ih =>
    by_cases h : p.1 = k
    · simp only [eraseKey, List.filter_cons]
      rw [if_neg (by simp [h])]
      simp only [lookupKey]
      rw [if_neg (by rw [h]; exact fun h2 => hne h2.symm)]
      exact ih
    · simp only [eraseKey, List.filter_cons]
      rw [if_pos (by simp [h])]
      simp only [lookupKey]
      by_cases h2 : p.1 = k1
      · rw [if_pos h2, if_pos h2]
      · rw [if_neg h2, if_neg h2]
        exact ih

theorem map_fst_insert_of_contains (k : Nat) (v : PyVal) :
    ∀ l, containsKey k l = true → (insertKey k v l).map Prod.fst = l.map Prod.fst := by
  intro l
  induction l with
  | nil => intro h; simp [containsKey, lookupKey] at h
  | cons p t ih =>
    intro h
    by_cases hk : p.1 = k
    · simp only [insertKey]
      rw [if_pos hk]
      simp [hk]
    · simp only [insertKey]
      rw [if_neg hk]
      simp only [List.map_cons]
      rw [ih]
      simp only [containsKey, lookupKey] at h
      rw [if_neg hk] at h
      exact h

theorem insert_of_not_contains (k : Nat) (v : PyVal) :
    ∀ l, containsKey k l = false → insertKey k v l = l ++ [(k, v)] := by
  intro l
  induction l with
  | nil => intro _; rfl
  | cons p t ih =>
    intro h
    simp only [containsKey, lookupKey] at h
    by_cases hk : p.1 = k
    · rw [if_pos hk] at h
      simp at h
    · rw [if_neg hk] at h
      simp only [insertKey]
      rw [if_neg hk, List.cons_append, ih]
      exact h

theorem map_fst_erase (k : Nat) :
    ∀ l, (eraseKey k l).map Prod.fst
      = (l.map Prod.fst).filter fun x => decide (x ≠ k) := by
  intro l
  induction l with
  | nil => rfl
  | cons p t ih =>
    simp only [eraseKey] at ih
    simp only [eraseKey, List.filter_cons, List.map_cons]
    by_cases h : p.1 = k
    · rw [if_neg (by simp [h]), if_neg (by simp [h])]
      exact ih
    · rw [if_pos (by simp [h]), if_pos (by simp [h])]
      simp only [List.map_cons]
      rw [ih]

theorem map_snd_filter_ne (k : Nat) :
    ∀ (h : List (DTime × Nat)), ((h.filter fun p => decide (p.2 ≠ k)).map Prod.snd)
      = (h.map Prod.snd).filter fun x => decide (x ≠ k) := by
  intro h
  induction h with
  | nil => rfl
  | cons p t ih =>
    simp only [List.filter_cons, List.map_cons]
    by_cases hp : p.2 = k
    · rw [if_neg (by simp [hp]), if_neg (by simp [hp])]
      exact ih
    · rw [if_pos (by simp [hp]), if_pos (by simp [hp])]
      simp only [List.map_cons]
      rw [ih]

theorem contains_iff_mem_map_fst (k : Nat) :
    ∀ l, containsKey k l = true ↔ k ∈ l.map Prod.fst := by
  intro l
  induction l with
  | nil => simp [containsKey, lookupKey]
  | cons p t ih =>
    simp only [containsKey, lookupKey, List.map_cons, List.mem_cons]
    by_cases h : p.1 = k
    · rw [if_pos h]
      simp [h]
    · rw [if_neg h]
      constructor
      · intro h2
        exact Or.inr ((ih).mp h2)
      · intro h2
        rcases h2 with h2 | h2
        · exact absurd h2.symm h
        · exact (ih).mpr h2

theorem cons_filter_ne_perm {a : Nat} :
    ∀ (l : List Nat), a ∈ l → l.Nodup →
      List.Perm (a :: l.filter fun b => decide (b ≠ a)) l := by
  intro l
  induction l with
  | nil => intro h _; simp at h
  | cons b t ih =>
    intro hmem hnd
    rcases List.mem_cons.mp hmem with h | h
    · subst h
      rw [List.filter_cons, if_neg (by simp)]
      have hnotin : a ∉ t := (List.nodup_cons.mp hnd).1
      rw [List.filter_eq_self.mpr ?_]
      intro x hx
      exact decide_eq_true (fun he => hnotin (he ▸ hx))
    · have hab : b ≠ a := by
        intro he
        subst he
        exact (List.nodup_cons.mp hnd).1 h
      rw [List.filter_cons, if_pos (by simpa using hab)]
      have h1 : List.Perm (a :: b :: t.filter fun x => decide (x ≠ a))
          (b :: a :: t.filter fun x => decide (x ≠ a)) := List.Perm.swap _ _ _
      exact h1.trans (List.Perm.cons b (ih h (List.nodup_cons.mp hnd).2))

/-! ### The store/index key invariant -/

theorem erase_of_cons_perm {a : Nat} {l1 l2 : List Nat}
    (h : List.Perm (a :: l1) l2) : List.Perm l1 (l2.erase a) := by
  have h2 := (h.symm).erase a
  simp only [List.erase_cons_head] at h2
  exact h2.symm

theorem filter_ne_eq_bne (a : Nat) (l : List Nat) :
    (l.filter fun x => decide (x ≠ a)) = l.filter fun x => x != a := by
  refine List.filter_congr ?_
  intro x _
  by_cases hx : x = a <;> simp [hx]

theorem cleanF_inv (now : Int) :
    ∀ (fuel : Nat) (data : List (Nat × PyVal)) (heap : List (DTime × Nat)),
      (data.map Prod.fst).Nodup →
      List.Perm (heap.map Prod.snd) (data.map Prod.fst) →
      ((cleanF now fuel data heap).1.map Prod.fst).Nodup ∧
        List.Perm ((cleanF now fuel data heap).2.map Prod.snd)
          ((cleanF now fuel data heap).1.map Prod.fst) := by
  intro fuel
  induction fuel with
  | zero => intro data heap h1 h2; exact ⟨h1, h2⟩
  | succ n ih =>
    intro data heap h1 h2
    cases heap with
    | nil =>
      simp only [cleanF]
      exact ⟨h1, by simpa using h2⟩
    | cons p rest0 =>
      simp only [cleanF]
      obtain ⟨rest, he, hlen, hperm⟩ := heappop_spec pairLt p rest0
      rw [he]
      by_cases hg : p.1.leInt now = true
      · rw [if_pos hg]
        have hnd2 : ((eraseKey p.2 data).map Prod.fst).Nodup := by
          rw [map_fst_erase]
          exact h1.filter _
        have hmem : List.Perm (rest.map Prod.snd) ((eraseKey p.2 data).map Prod.fst) := by
          have hx : List.Perm (rest0.map Prod.snd) ((data.map Prod.fst).erase p.2) :=
            erase_of_cons_perm (by simpa using h2)
          have heq : (data.map Prod.fst).erase p.2
              = (data.map Prod.fst).filter fun x => decide (x ≠ p.2) := by
            rw [h1.erase_eq_filter p.2, filter_ne_eq_bne]
          rw [map_fst_erase]
          exact (hperm.map Prod.snd).trans (hx.trans (by rw [heq]))
        exact ih (eraseKey p.2 data) rest hnd2 hmem
      · rw [if_neg hg]
        exact ⟨h1, h2⟩

theorem setitem_inv (now : Int) (key : Nat) (arg : PyVal) (st : TTLDict)
    (h : IndexInv st) : IndexInv (setitem now key arg st).2 := by
  obtain ⟨hnd, hperm⟩ := h
  match hp : parseArg now arg with
  | .error e => simpa only [setitem, hp] using And.intro hnd hperm
  | .ok (v, d) =>
    simp only [setitem, hp]
    by_cases hc : containsKey key st.data
    · rw [if_pos hc]
      constructor
      · simpa only [map_fst_insert_of_contains key v st.data hc] using hnd
      · have h1 := (heappush_perm pairLt
          (st.expiry_times.filter fun p => decide (p.2 ≠ key)) (d, key)).map Prod.snd
        simp only [List.map_cons] at h1
        rw [map_snd_filter_ne] at h1
        have h2 : List.Perm
            (key :: ((st.expiry_times.map Prod.snd).filter fun x => decide (x ≠ key)))
            (key :: ((st.data.map Prod.fst).filter fun x => decide (x ≠ key))) :=
          List.Perm.cons key (hperm.filter _)
        have h3 : List.Perm
            (key :: ((st.data.map Prod.fst).filter fun x => decide (x ≠ key)))
            (st.data.map Prod.fst) :=
          cons_filter_ne_perm (st.data.map Prod.fst)
            ((contains_iff_mem_map_fst key st.data).mp hc) hnd
        rw [map_fst_insert_of_contains key v st.data hc]
        exact h1.trans (h2.trans h3)
    · rw [if_neg hc]
      have hni : key ∉ st.data.map Prod.fst := by
        intro hm
        exact hc ((contains_iff_mem_map_fst key st.data).mpr hm)
      rw [insert_of_not_contains key v st.data (by simpa using hc)]
      constructor
      · have : List.Perm (st.data.map Prod.fst ++ [key]) (key :: st.data.map Prod.fst) :=
          List.perm_append_singleton key _
        rw [List.map_append]
        refine (this.nodup_iff).mpr ?_
        exact List.nodup_cons.mpr ⟨hni, hnd⟩
      · have h1 := (heappush_perm pairLt st.expiry_times (d, key)).map Prod.snd
        simp only [List.map_cons] at h1
        have h2 : List.Perm (key :: (st.expiry_times.map Prod.snd))
            (key :: (st.data.map Prod.fst)) := List.Perm.cons key hperm
        rw [List.map_append]
        exact h1.trans (h2.trans (List.perm_append_singleton key _).symm)

theorem delitem_inv (key : Nat) (st : TTLDict)
    (h : IndexInv st) : IndexInv (delitem key st).2 := by
  obtain ⟨hnd, hperm⟩ := h
  match hl : lookupKey key st.data with
  | none => simpa only [delitem, hl] using And.intro hnd hperm
  | some v =>
    simp only [delitem, hl]
    constructor
    · rw [map_fst_erase]
      exact hnd.filter _
    · rw [map_fst_erase, map_snd_filter_ne]
      exact hperm.filter _

theorem clean_inv (now : Int) (st : TTLDict)
    (h : IndexInv st) : IndexInv (cleanExpired now st) :=
  cleanF_inv now st.expiry_times.length st.data st.expiry_times h.1 h.2

theorem reach_inv : ∀ {t : Int} {st : TTLDict}, Reach t st → IndexInv st := by
  intro t st h
  induction h with
  | init _ => exact ⟨List.nodup_nil, List.Perm.refl _⟩
  | tick _ _ _ ih => exact ih
  | set now key arg _ _ ih => exact setitem_inv now key arg _ ih
  | del now key _ _ ih => exact delitem_inv key _ ih
  | sweep now _ _ ih => exact clean_inv now _ ih

/-! ### The instrumented sweep agrees with the sweep and never misses -/

theorem cleanFC_fst (now : Int) :
    ∀ (fuel : Nat) (data : List (Nat × PyVal)) (heap : List (DTime × Nat)),
      (cleanFC now fuel data heap).1 = cleanF now fuel data heap := by
  intro fuel
  induction fuel with
  | zero => intro data heap; rfl
  | succ n ih =>
    intro data heap
    cases heap with
    | nil => rfl
    | cons p rest0 =>
      simp only [cleanFC, cleanF]
      obtain ⟨rest, he, _, _⟩ := heappop_spec pairLt p rest0
      rw [he]
      by_cases hg : p.1.leInt now = true
      · rw [if_pos hg, if_pos hg]
        exact ih _ _
      · rw [if_neg hg, if_neg hg]

theorem cleanFC_miss_zero (now : Int) :
    ∀ (fuel : Nat) (data : List (Nat × PyVal)) (heap : List (DTime × Nat)),
      (data.map Prod.fst).Nodup →
      List.Perm (heap.map Prod.snd) (data.map Prod.fst) →
      (cleanFC now fuel data heap).2 = 0 := by
  intro fuel
  induction fuel with
  | zero => intro data heap _ _; rfl
  | succ n ih =>
    intro data heap h1 h2
    cases heap with
    | nil => rfl
    | cons p rest0 =>
      simp only [cleanFC]
      obtain ⟨rest, he, hlen, hperm⟩ := heappop_spec pairLt p rest0
      rw [he]
      by_cases hg : p.1.leInt now = true
      · rw [if_pos hg]
        have hmemk : p.2 ∈ data.map Prod.fst := by
          refine h2.mem_iff.mp ?_
          exact List.mem_map_of_mem Prod.snd (List.mem_cons_self p rest0)
        have hck : containsKey p.2 data = true :=
          (contains_iff_mem_map_fst p.2 data).mpr hmemk
        have hnd2 : ((eraseKey p.2 data).map Prod.fst).Nodup := by
          rw [map_fst_erase]
          exact h1.filter _
        have hmem : List.Perm (rest.map Prod.snd) ((eraseKey p.2 data).map Prod.fst) := by
          have hx : List.Perm (rest0.map Prod.snd) ((data.map Prod.fst).erase p.2) :=
            erase_of_cons_perm (by simpa using h2)
          have heq : (data.map Prod.fst).erase p.2
              = (data.map Prod.fst).filter fun x => decide (x ≠ p.2) := by
            rw [h1.erase_eq_filter p.2, filter_ne_eq_bne]
          rw [map_fst_erase]
          exact (hperm.map Prod.snd).trans (hx.trans (by rw [heq]))
        simp only [hck, if_pos]
        rw [ih (eraseKey p.2 data) rest hnd2 hmem]
      · rw [if_neg hg]

/-! ### The ghost current-deadline invariant -/

theorem lookup_erase_self (k : Nat) :
    ∀ l, lookupKey k (eraseKey k l) = none := by
  intro l
  induction l with
  | nil => rfl
  | cons p t ih =>
    simp only [eraseKey, List.filter_cons]
    by_cases h : p.1 = k
    · rw [if_neg (by simp [h])]
      exact ih
    · rw [if_pos (by simp [h])]
      simp only [lookupKey]
      rw [if_neg h]
      exact ih

theorem contains_erase_ne (k k1 : Nat) (l : List (Nat × PyVal)) (hne : k1 ≠ k) :
    containsKey k1 (eraseKey k l) = containsKey k1 l := by
  simp only [containsKey, lookup_erase_ne k k1 hne l]

theorem contains_insert_ne (k k1 : Nat) (v : PyVal) (l : List (Nat × PyVal)) (hne : k1 ≠ k) :
    containsKey k1 (insertKey k v l) = containsKey k1 l := by
  simp only [containsKey, lookup_insert_ne k k1 v hne l]

theorem contains_erase_elim {k k1 : Nat} {l : List (Nat × PyVal)}
    (h : containsKey k1 (eraseKey k l) = true) :
    k1 ≠ k ∧ containsKey k1 l = true := by
  by_cases hne : k1 = k
  · subst hne
    simp only [containsKey, lookup_erase_self k1 l] at h
    exact absurd h (by simp)
  · rw [contains_erase_ne k k1 l hne] at h
    exact ⟨hne, h⟩

theorem cleanF_ghost (now : Int) (g : Nat → Option DTime) :
    ∀ (fuel : Nat) (data : List (Nat × PyVal)) (heap : List (DTime × Nat)),
      (∀ k, containsKey k data = true → ∃ d, g k = some d ∧ (d, k) ∈ heap) →
      ∀ k, containsKey k (cleanF now fuel data heap).1 = true →
        ∃ d, g k = some d ∧ (d, k) ∈ (cleanF now fuel data heap).2 := by
  intro fuel
  induction fuel with
  | zero => intro data heap h k hk; exact h k hk
  | succ n ih =>
    intro data heap h k hk
    cases heap with
    | nil => exact h k (by simpa only [cleanF] using hk)
    | cons p rest0 =>
      simp only [cleanF] at hk ⊢
      obtain ⟨rest, he, hlen, hperm⟩ := heappop_spec pairLt p rest0
      rw [he] at hk ⊢
      by_cases hg : p.1.leInt now = true
      · rw [if_pos hg] at hk ⊢
        refine ih (eraseKey p.2 data) rest ?_ k hk
        intro k1 hk1
        obtain ⟨hne, hk2⟩ := contains_erase_elim hk1
        obtain ⟨d, hgd, hmem⟩ := h k1 hk2
        refine ⟨d, hgd, ?_⟩
        rcases List.mem_cons.mp hmem with hmm | hmm
        · exact absurd (congrArg Prod.snd hmm) (by simpa using hne)
        · exact hperm.mem_iff.mpr hmm
      · rw [if_neg hg] at hk ⊢
        exact h k hk

theorem setitem_ghost (now : Int) (key : Nat) (arg : PyVal) (value : PyVal) (d0 : DTime)
    (st : TTLDict) (g : Nat → Option DTime)
    (hp : parseArg now arg = .ok (value, d0))
    (h : ∀ k, containsKey k st.data = true → ∃ d, g k = some d ∧ (d, k) ∈ st.expiry_times) :
    ∀ k, containsKey k (setitem now key arg st).2.data = true →
      ∃ d, (if k = key then some d0 else g k) = some d ∧
        (d, k) ∈ (setitem now key arg st).2.expiry_times := by
  intro k hk
  simp only [setitem, hp] at hk ⊢
  by_cases hkk : k = key
  · subst hkk
    refine ⟨d0, by simp, ?_⟩
    refine (heappush_perm pairLt _ (d0, k)).mem_iff.mpr ?_
    exact List.mem_cons_self _ _
  · rw [contains_insert_ne key k value st.data hkk] at hk
    obtain ⟨d, hgd, hmem⟩ := h k hk
    refine ⟨d, by simp [hkk, hgd], ?_⟩
    refine (heappush_perm pairLt _ _).mem_iff.mpr (List.mem_cons_of_mem _ ?_)
    by_cases hc : containsKey key st.data
    · rw [if_pos hc]
      exact List.mem_filter.mpr ⟨hmem, by simpa using hkk⟩
    · rw [if_neg hc]
      exact hmem

theorem delitem_ghost (key : Nat) (st : TTLDict) (g : Nat → Option DTime)
    (h : ∀ k, containsKey k st.data = true → ∃ d, g k = some d ∧ (d, k) ∈ st.expiry_times) :
    ∀ k, containsKey k (delitem key st).2.data = true →
      ∃ d, g k = some d ∧ (d, k) ∈ (delitem key st).2.expiry_times := by
  intro k hk
  match hl : lookupKey key st.data with
  | none =>
    simp only [delitem, hl] at hk ⊢
    exact h k hk
  | some v =>
    simp only [delitem, hl] at hk ⊢
    obtain ⟨hne, hk2⟩ := contains_erase_elim hk
    obtain ⟨d, hgd, hmem⟩ := h k hk2
    exact ⟨d, hgd, List.mem_filter.mpr ⟨hmem, by simpa using hne⟩⟩

/-! ### Termination shape of the sweep: it stops at an unexpired root -/

theorem cleanF_post (now : Int) :
    ∀ (fuel : Nat) (data : List (Nat × PyVal)) (heap : List (DTime × Nat)),
      heap.length ≤ fuel →
      (cleanF now fuel data heap).2 = [] ∨
        ∃ q qs, (cleanF now fuel data heap).2 = q :: qs ∧ q.1.leInt now = false := by
  intro fuel
  induction fuel with
  | zero =>
    intro data heap hle
    have : heap = [] := List.length_eq_zero.mp (Nat.le_zero.mp hle)
    subst this
    exact Or.inl rfl
  | succ n ih =>
    intro data heap hle
    cases heap with
    | nil => exact Or.inl rfl
    | cons p rest0 =>
      simp only [cleanF]
      obtain ⟨rest, he, hlen, _⟩ := heappop_spec pairLt p rest0
      rw [he]
      by_cases hg : p.1.leInt now = true
      · rw [if_pos hg]
        refine ih (eraseKey p.2 data) rest ?_
        rw [hlen]
        simpa using Nat.le_of_succ_le_succ hle
      · rw [if_neg hg]
        exact Or.inr ⟨p, rest0, rfl, by simpa using hg⟩

/-! ### Keys whose every index pair is still in the future survive sweeps -/

theorem cleanF_keepK (now : Int) (K : Nat) (d0 : DTime) (hb : d0.leInt now = false) :
    ∀ (fuel : Nat) (data : List (Nat × PyVal)) (heap : List (DTime × Nat)),
      (∀ d, (d, K) ∈ heap → d = d0) →
      (∀ d, (d, K) ∈ (cleanF now fuel data heap).2 → d = d0) ∧
        lookupKey K (cleanF now fuel data heap).1 = lookupKey K data := by
  intro fuel
  induction fuel with
  | zero => intro data heap hp; exact ⟨hp, rfl⟩
  | succ n ih =>
    intro data heap hp
    cases heap with
    | nil => exact ⟨hp, rfl⟩
    | cons p rest0 =>
      simp only [cleanF]
      obtain ⟨rest, he, hlen, hperm⟩ := heappop_spec pairLt p rest0
      rw [he]
      by_cases hg : p.1.leInt now = true
      · rw [if_pos hg]
        have hkne : p.2 ≠ K := by
          intro hkk
          have hpm : (p.1, K) ∈ p :: rest0 := by
            rw [← hkk]
            exact List.mem_cons_self p rest0
          have := hp p.1 hpm
          rw [this] at hg
          rw [hb] at hg
          exact Bool.false_ne_true hg
        have hrec := ih (eraseKey p.2 data) rest ?_
        · refine ⟨hrec.1, ?_⟩
          rw [hrec.2, lookup_erase_ne p.2 K (fun h2 => hkne h2.symm) data]
        · intro d hd
          exact hp d (List.mem_cons_of_mem p (hperm.mem_iff.mp hd))
      · rw [if_neg hg]
        exact ⟨hp, rfl⟩

theorem clean_keepK (now : Int) (K : Nat) (d0 : DTime) (hb : d0.leInt now = false)
    (st : TTLDict) (hp : ∀ d, (d, K) ∈ st.expiry_times → d = d0) :
    (∀ d, (d, K) ∈ (cleanExpired now st).expiry_times → d = d0) ∧
      lookupKey K (cleanExpired now st).data = lookupKey K st.data :=
  cleanF_keepK now K d0 hb st.expiry_times.length st.data st.expiry_times hp

theorem setitem_keepK (now : Int) (key K : Nat) (arg : PyVal) (d0 : DTime) (st : TTLDict)
    (hne : key ≠ K) (hp : ∀ d, (d, K) ∈ st.expiry_times → d = d0) :
    (∀ d, (d, K) ∈ (setitem now key arg st).2.expiry_times → d = d0) ∧
      lookupKey K (setitem now key arg st).2.data = lookupKey K st.data := by
  match hpar : parseArg now arg with
  | .error e => simp only [setitem, hpar]; exact ⟨hp, by trivial⟩
  | .ok (v, dd) =>
    simp only [setitem, hpar]
    constructor
    · intro d hd
      rcases List.mem_cons.mp ((heappush_perm pairLt _ _).mem_iff.mp hd) with hm | hm
      · exact absurd (congrArg Prod.snd hm) (by simpa using fun h2 => hne h2.symm)
      · by_cases hc : containsKey key st.data
        · rw [if_pos hc] at hm
          exact hp d (List.mem_filter.mp hm).1
        · rw [if_neg hc] at hm
          exact hp d hm
    · exact lookup_insert_ne key K v (fun h2 => hne h2.symm) st.data

theorem delitem_keepK (key K : Nat) (d0 : DTime) (st : TTLDict)
    (hne : key ≠ K) (hp : ∀ d, (d, K) ∈ st.expiry_times → d = d0) :
    (∀ d, (d, K) ∈ (delitem key st).2.expiry_times → d = d0) ∧
      lookupKey K (delitem key st).2.data = lookupKey K st.data := by
  match hl : lookupKey key st.data with
  | none => simp only [delitem, hl]; exact ⟨hp, by trivial⟩
  | some v =>
    simp only [delitem, hl]
    constructor
    · intro d hd
      exact hp d (List.mem_filter.mp hd).1
    · exact lookup_erase_ne key K (fun h2 => hne h2.symm) st.data

theorem avoidK_keepK {K : Nat} {st st1 : TTLDict} (h : AvoidK K st st1)
    (hp : ∀ d, (d, K) ∈ st.expiry_times → d = DTime.inf) :
    (∀ d, (d, K) ∈ st1.expiry_times → d = DTime.inf) ∧
      lookupKey K st1.data = lookupKey K st.data := by
  rcases h with ⟨now, key, arg, hne, hst⟩ | ⟨key, hne, hst⟩ | ⟨now, hst⟩
  · subst hst
    exact setitem_keepK now key K arg DTime.inf st hne hp
  · subst hst
    exact delitem_keepK key K DTime.inf st hne hp
  · subst hst
    exact clean_keepK now K DTime.inf rfl st hp

theorem avoidKB_keepK {K : Nat} {cut : Int} {st st1 : TTLDict} (h : AvoidKB K cut st st1)
    (hp : ∀ d, (d, K) ∈ st.expiry_times → d = DTime.fin cut) :
    (∀ d, (d, K) ∈ st1.expiry_times → d = DTime.fin cut) ∧
      lookupKey K st1.data = lookupKey K st.data := by
  rcases h with ⟨now, key, arg, hne, hst⟩ | ⟨key, hne, hst⟩ | ⟨now, hnow, hst⟩
  · subst hst
    exact setitem_keepK now key K arg (DTime.fin cut) st hne hp
  · subst hst
    exact delitem_keepK key K (DTime.fin cut) st hne hp
  · subst hst
    refine clean_keepK now K (DTime.fin cut) ?_ st hp
    simp only [DTime.leInt]
    simpa using by omega
  
theorem rtgK_keepK {K : Nat} {st st1 : TTLDict}
    (h : Relation.ReflTransGen (AvoidK K) st st1)
    (hp : ∀ d, (d, K) ∈ st.expiry_times → d = DTime.inf) :
    (∀ d, (d, K) ∈ st1.expiry_times → d = DTime.inf) ∧
      lookupKey K st1.data = lookupKey K st.data := by
  induction h with
  | refl => exact ⟨hp, rfl⟩
  | tail _ hstep ih =>
    obtain ⟨hp1, he1⟩ := ih
    obtain ⟨hp2, he2⟩ := avoidK_keepK hstep hp1
    exact ⟨hp2, he2.trans he1⟩

theorem rtgKB_keepK {K : Nat} {cut : Int} {st st1 : TTLDict}
    (h : Relation.ReflTransGen (AvoidKB K cut) st st1)
    (hp : ∀ d, (d, K) ∈ st.expiry_times → d = DTime.fin cut) :
    (∀ d, (d, K) ∈ st1.expiry_times → d = DTime.fin cut) ∧
      lookupKey K st1.data = lookupKey K st.data := by
  induction h with
  | refl => exact ⟨hp, rfl⟩
  | tail _ hstep ih =>
    obtain ⟨hp1, he1⟩ := ih
    obtain ⟨hp2, he2⟩ := avoidKB_keepK hstep hp1
    exact ⟨hp2, he2.trans he1⟩

theorem setK_pairs_of_contains (now : Int) (K : Nat) (arg value : PyVal) (d0 : DTime)
    (st : TTLDict) (hc : containsKey K st.data = true)
    (hp : parseArg now arg = .ok (value, d0)) :
    lookupKey K (setitem now K arg st).2.data = some value ∧
      ∀ d, (d, K) ∈ (setitem now K arg st).2.expiry_times → d = d0 := by
  simp only [setitem, hp]
  refine ⟨lookup_insert_self K value st.data, ?_⟩
  intro d hd
  rcases List.mem_cons.mp ((heappush_perm pairLt _ _).mem_iff.mp hd) with hm | hm
  · exact congrArg Prod.fst hm
  · rw [if_pos hc] at hm
    exact absurd (List.mem_filter.mp hm).2 (by simp)

theorem setK_pairs_of_inv (now : Int) (K : Nat) (arg value : PyVal) (d0 : DTime)
    (st : TTLDict) (hinv : IndexInv st)
    (hp : parseArg now arg = .ok (value, d0)) :
    lookupKey K (setitem now K arg st).2.data = some value ∧
      ∀ d, (d, K) ∈ (setitem now K arg st).2.expiry_times → d = d0 := by
  by_cases hc : containsKey K st.data
  · exact setK_pairs_of_contains now K arg value d0 st hc hp
  · simp only [setitem, hp]
    refine ⟨lookup_insert_self K value st.data, ?_⟩
    intro d hd
    rcases List.mem_cons.mp ((heappush_perm pairLt _ _).mem_iff.mp hd) with hm | hm
    · exact congrArg Prod.fst hm
    · rw [if_neg hc] at hm
      have hmk : K ∈ st.expiry_times.map Prod.snd := List.mem_map_of_mem Prod.snd hm
      have : K ∈ st.data.map Prod.fst := hinv.2.mem_iff.mp hmk
      exact absurd ((contains_iff_mem_map_fst K st.data).mpr this) hc

theorem get_of_inf_pairs (now : Int) (K : Nat) (value : PyVal) (st1 : TTLDict)
    (hv : lookupKey K st1.data = some value)
    (hinf : ∀ d, (d, K) ∈ st1.expiry_times → d = DTime.inf) :
    (getitem now K st1).1 = .ok value := by
  obtain ⟨_, he⟩ := clean_keepK now K DTime.inf rfl st1 hinf
  simp only [getitem]
  rw [he, hv]

/-! ### Claim theorems -/

/-- C1 (code-bug exhibit).  Sweep completeness fails: in the reachable
state `bugState` — six keys written at instant 0 with TTLs 1, 5, 2, 6,
7, 3, key 1 then overwritten with a never-expiring value, and the
periodic sweep run at instants 1, 2, 3 and 4 — the pair `(2, key 3)`
with deadline `2 ≤ 4` is still in the deadline index after the sweep at
instant 4, key 3 is still in the entry store, and `get` of key 3 at
instant 4 (which runs the sweep first) returns its value instead of
failing with `KeyError`, although its TTL of 2 plus the sweep interval
of 1 elapsed at instant 3.  The overwrite's list filtering destroyed
the heap layout, so the sweep stops at the non-minimal root `(5, 2)`. -/
theorem sweep_misses_expired_entries :
    Reach 4 bugState ∧
    (DTime.fin 2, 3) ∈ bugState.expiry_times ∧
    DTime.leInt (DTime.fin 2) 4 = true ∧
    containsKey 3 bugState.data = true ∧
    (getitem 4 3 bugState).1 = Except.ok (PyVal.obj 3) := by
  refine ⟨?_, by decide, by decide, by decide, rfl⟩
  exact Reach.sweep 4 (Reach.sweep 3 (Reach.sweep 2 (Reach.sweep 1
    (Reach.set 0 1 (.obj 10) (Reach.set 0 6 (.tup [.obj 6, .vint 3])
      (Reach.set 0 5 (.tup [.obj 5, .vint 7]) (Reach.set 0 4 (.tup [.obj 4, .vint 6])
        (Reach.set 0 3 (.tup [.obj 3, .vint 2]) (Reach.set 0 2 (.tup [.obj 2, .vint 5])
          (Reach.set 0 1 (.tup [.obj 1, .vint 1]) (Reach.init 0) le_rfl)
          le_rfl) le_rfl) le_rfl) le_rfl) le_rfl) le_rfl)
    (by decide)) (by decide)) (by decide)) (by decide)

/-- C2 counterexample.  A negative TTL is not rejected: the write at
instant 0 with TTL −5 succeeds and mutates both the entry store and
the deadline index (so it neither fails nor leaves the state
unchanged). -/
theorem negative_ttl_not_rejected_cex :
    (setitem 0 7 (.tup [.obj 1, .vint (-5)]) TTLDict.empty).1 = Except.ok () ∧
    (setitem 0 7 (.tup [.obj 1, .vint (-5)]) TTLDict.empty).2.data = [(7, .obj 1)] ∧
    (setitem 0 7 (.tup [.obj 1, .vint (-5)]) TTLDict.empty).2.expiry_times
      = [(DTime.fin (-5), 7)] :=
  ⟨rfl, rfl, rfl⟩

/-- C2 (amended).  A write with a negative TTL is accepted without any
validation: it succeeds and records the deadline `now + ttl`, which is
strictly in the past — the entry is treated as already expired
(eligible for the next sweep), not truncated to zero and not treated as
never-expiring. -/
theorem negative_ttl_accepted (now : Int) (key : Nat) (v : PyVal) (n : Int)
    (st : TTLDict) (hn : n < 0) :
    (setitem now key (.tup [v, .vint n]) st).1 = Except.ok () ∧
    (DTime.fin (now + n), key) ∈ (setitem now key (.tup [v, .vint n]) st).2.expiry_times ∧
    now + n < now := by
  refine ⟨?_, ?_, by omega⟩
  · simp only [setitem, parseArg]
  · simp only [setitem, parseArg]
    exact (heappush_perm pairLt _ _).mem_iff.mpr (List.mem_cons_self _ _)

theorem negative_ttl_accepted_witness :
    (-5 : Int) < 0 ∧
      ((setitem 0 7 (.tup [.obj 1, .vint (-5)]) TTLDict.empty).1 = Except.ok () ∧
        (DTime.fin (0 + -5), 7)
          ∈ (setitem 0 7 (.tup [.obj 1, .vint (-5)]) TTLDict.empty).2.expiry_times ∧
        (0 : Int) + -5 < 0) :=
  ⟨by decide, negative_ttl_accepted 0 7 (.obj 1) (-5) TTLDict.empty (by decide)⟩

/-- C3 counterexample.  `delete` does not raise on an expired key: in a
reachable state at instant 5 holding key 1 whose only deadline is 0
(long past), `delete` succeeds instead of failing with `KeyError` —
the delete path never consults the clock nor sweeps. -/
theorem delete_succeeds_on_expired_cex :
    Reach 5 (setitem 0 1 (.tup [.obj 1, .vint 0]) TTLDict.empty).2 ∧
    (DTime.fin 0, 1) ∈ (setitem 0 1 (.tup [.obj 1, .vint 0]) TTLDict.empty).2.expiry_times ∧
    DTime.leInt (DTime.fin 0) 5 = true ∧
    (delitem 1 (setitem 0 1 (.tup [.obj 1, .vint 0]) TTLDict.empty).2).1 = Except.ok () :=
  ⟨Reach.tick 5 (Reach.set 0 1 (.tup [.obj 1, .vint 0]) (Reach.init 0) le_rfl) (by decide),
    by decide, by decide, rfl⟩

/-- C3 (amended).  `delete(key)` raises `KeyError` exactly when the key
is absent from the entry store (an expired but not yet swept key is
still deletable); on the error path both the entry store and the
deadline index are left unchanged, and on success the key is removed
from the store and every pair for it is purged from the index. -/
theorem delete_error_iff_absent (st : TTLDict) (key : Nat) :
    ((delitem key st).1 = Except.error PyErr.keyError ↔ lookupKey key st.data = none) ∧
    ((delitem key st).1 = Except.error PyErr.keyError → (delitem key st).2 = st) ∧
    (∀ v, lookupKey key st.data = some v →
      (delitem key st).1 = Except.ok () ∧
      (delitem key st).2.data = eraseKey key st.data ∧
      (delitem key st).2.expiry_times = st.expiry_times.filter fun p => decide (p.2 ≠ key)) := by
  match hl : lookupKey key st.data with
  | none => simp [delitem, hl]
  | some v => simp [delitem, hl]

theorem delete_error_iff_absent_witness :
    lookupKey 1 (setitem 0 1 (.obj 2) TTLDict.empty).2.data = some (.obj 2) ∧
      (delitem 1 (setitem 0 1 (.obj 2) TTLDict.empty).2).1 = Except.ok () :=
  ⟨rfl, ((delete_error_iff_absent (setitem 0 1 (.obj 2) TTLDict.empty).2 1).2.2
    (.obj 2) rfl).1⟩

/-- C4.  Invariant I1, preserved by construction, every public
operation (failed writes included) and every sweep: each key present in
the entry store has at least one `(deadline, key)` pair in the deadline
index whose deadline is exactly the one computed at that key's most
recent write (recorded by the ghost map of `ReachG`). -/
theorem deadline_index_invariant {t : Int} {st : TTLDict} {g : Nat → Option DTime}
    (h : ReachG t st g) :
    ∀ k, containsKey k st.data = true →
      ∃ d, g k = some d ∧ (d, k) ∈ st.expiry_times := by
  induction h with
  | init _ =>
    intro k hk
    simp [TTLDict.empty, containsKey, lookupKey] at hk
  | tick _ _ _ ih => exact ih
  | set now key arg value d _ hle hp ih =>
    exact setitem_ghost now key arg value d _ _ hp ih
  | del now key _ _ ih => exact delitem_ghost key _ _ ih
  | sweep now _ _ ih =>
    intro k hk
    exact cleanF_ghost now _ _ _ _ ih k hk

theorem deadline_index_invariant_witness :
    ∃ d, (if 1 = 1 then some DTime.inf else (none : Option DTime)) = some d ∧
      (d, 1) ∈ (setitem 0 1 (.obj 5) TTLDict.empty).2.expiry_times :=
  deadline_index_invariant
    (ReachG.set 0 1 (.obj 5) (.obj 5) DTime.inf (ReachG.init 0) le_rfl rfl) 1 (by decide)

/-- C5.  Never-expire: from any reachable state, after a write of key
`K` whose argument carries no TTL (either a plain non-tuple value or an
explicit `None` TTL, i.e. any argument parsing to the `inf` deadline),
and after any number of further operations none of which writes or
deletes `K` — other writes, other deletes, and sweeps at arbitrary
instants — `get(K)` at any instant still returns the written value. -/
theorem never_expire_write_persists {t now : Int} {st st1 : TTLDict} {K : Nat}
    {arg value : PyVal}
    (hre : Reach t st) (hp : parseArg now arg = Except.ok (value, DTime.inf))
    (hsteps : Relation.ReflTransGen (AvoidK K) (setitem now K arg st).2 st1)
    (now1 : Int) :
    (getitem now1 K st1).1 = Except.ok value := by
  have hinv := reach_inv hre
  obtain ⟨hv, hinf⟩ := setK_pairs_of_inv now K arg value DTime.inf st hinv hp
  obtain ⟨hinf1, heq⟩ := rtgK_keepK hsteps hinf
  exact get_of_inf_pairs now1 K value st1 (heq.trans hv) hinf1

theorem never_expire_write_persists_witness :
    (getitem 9 1 (cleanExpired 5 (setitem 0 1 (.obj 0) TTLDict.empty).2)).1
      = Except.ok (.obj 0) :=
  never_expire_write_persists (Reach.init 0)
    (show parseArg 0 (PyVal.obj 0) = Except.ok (PyVal.obj 0, DTime.inf) from rfl)
    (Relation.ReflTransGen.single (Or.inr (Or.inr ⟨5, rfl⟩))) 9

/-- C6.  Overwrite resets the deadline: from any reachable state, after
`set(K, V1, ttl=1)` at instant `now1`, any operations avoiding `K`
whose sweeps all happen strictly before the deadline `now1 + 1`, then
an overwrite of `K` with a never-expiring argument, the superseded
deadline never removes `K`: after arbitrarily many further operations
avoiding `K` (sweeps at any instants, however far past the original
window), `get(K)` still returns the second value. -/
theorem overwrite_clears_old_deadline {t now1 now2 : Int} {st st2 st4 : TTLDict}
    {K : Nat} {v1 arg2 v2 : PyVal}
    (hre : Reach t st)
    (hn2 : now2 < now1 + 1)
    (hsteps1 : Relation.ReflTransGen (AvoidKB K (now1 + 1))
      (setitem now1 K (.tup [v1, .vint 1]) st).2 st2)
    (hp2 : parseArg now2 arg2 = Except.ok (v2, DTime.inf))
    (hsteps2 : Relation.ReflTransGen (AvoidK K) (setitem now2 K arg2 st2).2 st4)
    (now3 : Int) :
    (getitem now3 K st4).1 = Except.ok v2 := by
  have hinv := reach_inv hre
  have hp1 : parseArg now1 (PyVal.tup [v1, .vint 1])
      = Except.ok (v1, DTime.fin (now1 + 1)) := rfl
  obtain ⟨hv1, hfin⟩ := setK_pairs_of_inv now1 K _ v1 (DTime.fin (now1 + 1)) st hinv hp1
  obtain ⟨hfin2, heq2⟩ := rtgKB_keepK hsteps1 hfin
  have hc2 : containsKey K st2.data = true := by
    unfold containsKey
    rw [heq2, hv1]
    rfl
  obtain ⟨hv2, hinf⟩ := setK_pairs_of_contains now2 K arg2 v2 DTime.inf st2 hc2 hp2
  obtain ⟨hinf4, heq4⟩ := rtgK_keepK hsteps2 hinf
  exact get_of_inf_pairs now3 K v2 st4 (heq4.trans hv2) hinf4

theorem overwrite_clears_old_deadline_witness :
    (getitem 100 1 (cleanExpired 100
      (setitem 0 1 (.obj 2)
        (cleanExpired 0 (setitem 0 1 (.tup [.obj 1, .vint 1]) TTLDict.empty).2)).2)).1
      = Except.ok (.obj 2) :=
  overwrite_clears_old_deadline (Reach.init 0) (by decide)
    (Relation.ReflTransGen.single (Or.inr (Or.inr ⟨0, by decide, rfl⟩)))
    (show parseArg 0 (PyVal.obj 2) = Except.ok (PyVal.obj 2, DTime.inf) from rfl)
    (Relation.ReflTransGen.single (Or.inr (Or.inr ⟨100, rfl⟩))) 100

/-- C7.  Query frame: `contains`, `len`, `keys`, `values` and `items`
leave the state exactly unchanged (none of them sweeps, so their
results reflect the store as last swept — an expired but unswept key
still counts as present), and the three iteration operations return
snapshots of the store's current contents at the instant of the call. -/
theorem query_frame (st : TTLDict) (key : Nat) :
    (containsOp key st).2 = st ∧ (lenOp st).2 = st ∧ (keysOp st).2 = st ∧
    (valuesOp st).2 = st ∧ (itemsOp st).2 = st ∧
    ((containsOp key st).1 = true ↔ key ∈ st.data.map Prod.fst) ∧
    (lenOp st).1 = st.data.length ∧
    (keysOp st).1 = st.data.map Prod.fst ∧
    (valuesOp st).1 = st.data.map Prod.snd ∧
    (itemsOp st).1 = st.data := by
  refine ⟨rfl, rfl, rfl, rfl, rfl, ?_, rfl, rfl, rfl, rfl⟩
  exact contains_iff_mem_map_fst key st.data

/-- C8.  Idempotent sweep: with no time passing and no writes in
between, a second sweep is a no-op — it removes nothing, changes
nothing, and cannot fail, including on an empty index (the first sweep
leaves the index either empty or with a root strictly in the future,
which makes the second sweep's loop guard fail immediately). -/
theorem sweep_idempotent (now : Int) (st : TTLDict) :
    cleanExpired now (cleanExpired now st) = cleanExpired now st := by
  have hpost := cleanF_post now st.expiry_times.length st.data st.expiry_times (le_refl _)
  simp only [cleanExpired]
  rcases hpost with h | ⟨q, qs, h, hq⟩
  · rw [h]
    simp only [List.length_nil, cleanF]
  · rw [h]
    simp only [List.length_cons, cleanF]
    rw [if_neg (by rw [hq]; exact Bool.false_ne_true)]

/-- C9.  No-stale-pairs invariant: in every reachable state the store's
keys are pairwise distinct, the multiset of keys occurring in the
deadline index is exactly the multiset of the store's keys — every
stored key in exactly one pair, every pair's key present in the store —
and consequently the sweep's `except KeyError` branch is dead code: the
instrumented sweep counts zero missing-key deletions at any instant. -/
theorem index_keys_match_store {t : Int} {st : TTLDict} (h : Reach t st) :
    (st.data.map Prod.fst).Nodup ∧
    List.Perm (st.expiry_times.map Prod.snd) (st.data.map Prod.fst) ∧
    ∀ now, (cleanFC now st.expiry_times.length st.data st.expiry_times).2 = 0 := by
  have hinv := reach_inv h
  exact ⟨hinv.1, hinv.2, fun now => cleanFC_miss_zero now _ _ _ hinv.1 hinv.2⟩

theorem index_keys_match_store_witness :
    (((setitem 0 1 (.obj 2) TTLDict.empty).2.data.map Prod.fst).Nodup ∧
      List.Perm ((setitem 0 1 (.obj 2) TTLDict.empty).2.expiry_times.map Prod.snd)
        ((setitem 0 1 (.obj 2) TTLDict.empty).2.data.map Prod.fst) ∧
      ∀ now, (cleanFC now (setitem 0 1 (.obj 2) TTLDict.empty).2.expiry_times.length
        (setitem 0 1 (.obj 2) TTLDict.empty).2.data
        (setitem 0 1 (.obj 2) TTLDict.empty).2.expiry_times).2 = 0) :=
  index_keys_match_store (Reach.set 0 1 (.obj 2) (Reach.init 0) le_rfl)

/-- C10 counterexample.  A tuple *can* be stored as the value of a
never-expiring entry, by wrapping it in the 2-tuple form with a `None`
TTL: `set(1, ((v1, v2), None))` stores the tuple `(v1, v2)` under an
`inf` deadline — refuting the claim's final consequence. -/
theorem tuple_value_never_expiring_cex :
    (setitem 0 1 (.tup [.tup [.obj 1, .obj 2], .vnone]) TTLDict.empty).1 = Except.ok () ∧
    lookupKey 1 (setitem 0 1 (.tup [.tup [.obj 1, .obj 2], .vnone]) TTLDict.empty).2.data
      = some (.tup [.obj 1, .obj 2]) ∧
    (setitem 0 1 (.tup [.tup [.obj 1, .obj 2], .vnone]) TTLDict.empty).2.expiry_times
      = [(DTime.inf, 1)] :=
  ⟨rfl, rfl, rfl⟩

/-- C10 (amended).  Positional TTL encoding: a 2-tuple argument
`(a, b)` stores `a` with TTL `b` (deadline `now + b` for an integer
`b`, the never-expire sentinel for a `None` `b`); a non-tuple argument
is stored whole and never expires; hence a tuple passed directly is
always destructured, and a tuple value can only be stored — including
never-expiring — via the wrapped 2-tuple form. -/
theorem set_argument_encoding (now : Int) (key : Nat) (st : TTLDict)
    (a : PyVal) (n : Int) :
    parseArg now (.tup [a, .vnone]) = Except.ok (a, DTime.inf) ∧
    parseArg now (.tup [a, .vint n]) = Except.ok (a, DTime.fin (now + n)) ∧
    (∀ v : PyVal, isTup v = false → parseArg now v = Except.ok (v, DTime.inf)) ∧
    lookupKey key (setitem now key (.tup [a, .vnone]) st).2.data = some a ∧
    (DTime.inf, key) ∈ (setitem now key (.tup [a, .vnone]) st).2.expiry_times := by
  refine ⟨rfl, rfl, ?_, ?_, ?_⟩
  · intro v hv
    cases v with
    | obj m => rfl
    | vint m => rfl
    | vnone => rfl
    | tup l => simp [isTup] at hv
  · simp only [setitem, parseArg]
    exact lookup_insert_self key a st.data
  · simp only [setitem, parseArg]
    exact (heappush_perm pairLt _ _).mem_iff.mpr (List.mem_cons_self _ _)

theorem set_argument_encoding_witness :
    parseArg 0 (.obj 0) = Except.ok (.obj 0, DTime.inf) ∧
      lookupKey 1 (setitem 0 1 (.tup [PyVal.tup [], .vnone]) TTLDict.empty).2.data
        = some (.tup []) :=
  ⟨(set_argument_encoding 0 1 TTLDict.empty (.tup []) 3).2.2.1 (.obj 0) rfl,
    (set_argument_encoding 0 1 TTLDict.empty (.tup []) 3).2.2.2.1⟩
